import Mathlib

/-!
Verification of the chunking / indexing / retrieval core of the repository
(`window_chunker.py`, `chunk_executive_orders.py`, `embedding.py`,
`query_executive_orders.py`).

Texts are modelled as `List Char`; Python `str` slicing, `str.rfind`,
`str.strip` and integer arithmetic are given faithful executable
counterparts below.  The two sliding-window chunkers are translated
statement by statement; their `while` loops are written with an explicit
fuel argument (`fuel = text.length` at the top level, which is always
sufficient because the cursor strictly increases each iteration — proved
in `wcLoop_fuel_stable` / `eoLoop_fuel_stable`).
-/

namespace BillChat

/-- The ASCII whitespace characters recognised by Python's `str.strip()`
(the documents in this development contain no non-ASCII whitespace). -/
def isPySpace (c : Char) : Bool :=
  c = ' ' || c = '\t' || c = '\n' || c = '\r' || c = '\x0b' || c = '\x0c'

/-- Python `s.strip()`: drop whitespace from both ends. -/
def pyStrip (l : List Char) : List Char :=
  ((l.dropWhile isPySpace).reverse.dropWhile isPySpace).reverse

/-- Python slice `s[a:b]` (for `0 ≤ a`, `0 ≤ b`). -/
def pySlice (l : List Char) (a b : Nat) : List Char :=
  (l.drop a).take (b - a)

/-- Python `s.rfind(sub, a, b)`: the largest index `i` with `a ≤ i`,
`i + len(sub) ≤ b` and `s[i : i+len(sub)] = sub`; `none` models `-1`. -/
def rfind? (l sub : List Char) (a b : Nat) : Option Nat :=
  ((List.range (l.length + 1)).filter
    (fun i => decide (a ≤ i ∧ i + sub.length ≤ b ∧ pySlice l i (i + sub.length) = sub))).max?

/-! ### WindowChunker.chunk_by_window (`window_chunker.py`, lines 79-131) -/

/-- The sentence-terminator patterns tried, in order, by
`WindowChunker.chunk_by_window`. -/
def wcPuncts : List (List Char) :=
  [['.', ' '], ['!', ' '], ['?', ' '], ['.', '\n'], ['!', '\n'], ['?', '\n']]

/-- The `for punct in [...]` loop of `WindowChunker.chunk_by_window`:
`boundary` is overwritten by each `rfind`; on the first hit strictly past
the threshold the loop breaks with `boundary + 1`; otherwise the value
left in `boundary` is the last `rfind` result. -/
def wcPunctScan (text : List Char) (s e thr : Nat) : List (List Char) → Option Nat
  | [] => none
  | [p] =>
    match rfind? text p s e with
    | some b => if thr < b then some (b + 1) else some b
    | none => none
  | p :: ps =>
    match rfind? text p s e with
    | some b => if thr < b then some (b + 1) else wcPunctScan text s e thr ps
    | none => wcPunctScan text s e thr ps

/-- Boundary search of `WindowChunker.chunk_by_window` for a non-final
window `[start, e)` (`e = start + size < len`): paragraph break, then the
sentence-terminator loop, then the hard cut at `e`; candidates at or below
`start + size // 2` are rejected. -/
def wcBoundary (size : Nat) (text : List Char) (s e : Nat) : Nat :=
  let thr := s + size / 2
  let b0 := rfind? text ['\n', '\n'] s e
  let b1 :=
    match b0 with
    | some b => if b < thr then wcPunctScan text s e thr wcPuncts else some b
    | none => wcPunctScan text s e thr wcPuncts
  match b1 with
  | some b => if b < thr then e else b
  | none => e

/-- Python `next_start = start + size - overlap`, bumped to `start + 1` whenever
it does not advance (`window_chunker.py`, lines 122-129). -/
def wcNext (size ov start : Nat) : Nat :=
  let n := start + size - ov
  if n ≤ start then start + 1 else n

/-- The `while start < len(text)` loop of `WindowChunker.chunk_by_window`. -/
def wcLoop (size ov : Nat) (text : List Char) : Nat → Nat → List (List Char)
  | 0, _ => []
  | fuel + 1, start =>
    if start < text.length then
      let e := start + size
      let chunk :=
        if text.length ≤ e then text.drop start
        else pySlice text start (wcBoundary size text start e)
      let trimmed := pyStrip chunk
      let rest := wcLoop size ov text fuel (wcNext size ov start)
      if trimmed.isEmpty then rest else trimmed :: rest
    else []

/-- Model of `WindowChunker.chunk_by_window` (`window_chunker.py`, lines 79-131):
texts no longer than the window are returned whole (untrimmed); otherwise
the sliding-window loop runs from cursor 0. -/
def wcChunkByWindow (size ov : Nat) (text : List Char) : List (List Char) :=
  if text.length ≤ size then [text] else wcLoop size ov text text.length 0

/-! ### EOChunker.chunk_by_window (`chunk_executive_orders.py`, lines 88-146) -/

/-- Python `max` over two `rfind` results, where `none` models `-1`. -/
def omax : Option Nat → Option Nat → Option Nat
  | none, b => b
  | some a, none => some a
  | some a, some b => some (max a b)

/-- End-of-window computation of `EOChunker.chunk_by_window`.  `d` models
the Python value `int(self.chunk_size * 0.2)` (a float product truncated
to an integer; theorems quantify over `d`, so they cover the actual
value, which is always `< size` for `size ≥ 1`). -/
def eoEnd (size d : Nat) (text : List Char) (start : Nat) : Nat :=
  let len := text.length
  let e0 := min (start + size) len
  if e0 < len then
    let lfs := max start (e0 - d)
    match rfind? text ['\n', '\n'] lfs e0 with
    | some b => b
    | none =>
      match omax (omax (rfind? text ['.', ' '] lfs e0) (rfind? text ['?', ' '] lfs e0))
          (rfind? text ['!', ' '] lfs e0) with
      | some b => b + 1
      | none =>
        match rfind? text [' '] lfs e0 with
        | some b => b
        | none => e0
  else e0

/-- Next cursor of `EOChunker.chunk_by_window` (lines 134-144):
`min(end, len)`, replaced by `max(start+1, end-overlap)` when not at the
end of the text, and bumped to `start + 1` if it failed to advance. -/
def eoNext (ov len start e : Nat) : Nat :=
  let n0 := min e len
  let n1 := if e < len then max (start + 1) (e - ov) else n0
  if n1 ≤ start then start + 1 else n1

/-- The `while start < text_length` loop of `EOChunker.chunk_by_window`. -/
def eoLoop (size ov d : Nat) (text : List Char) : Nat → Nat → List (List Char)
  | 0, _ => []
  | fuel + 1, start =>
    if start < text.length then
      let e := eoEnd size d text start
      let trimmed := pyStrip (pySlice text start e)
      let rest := eoLoop size ov d text fuel (eoNext ov text.length start e)
      if trimmed.isEmpty then rest else trimmed :: rest
    else []

/-- Model of `EOChunker.chunk_by_window` (`chunk_executive_orders.py`,
lines 88-146). -/
def eoChunkByWindow (size ov d : Nat) (text : List Char) : List (List Char) :=
  eoLoop size ov d text text.length 0

/-! ### preprocess_text (`window_chunker.py` 62-77, `chunk_executive_orders.py` 71-86) -/

/-- One pass of Python `re.sub(r'\n\s*\n+', '\n\n', text)`: a match
starts at a `'\n'` whose following whitespace run contains another
`'\n'`; the (greedy, backtracking) match extends through the last `'\n'`
of that run and is replaced by `"\n\n"`; scanning resumes after it. -/
def normNL : Nat → List Char → List Char
  | 0, l => l
  | _ + 1, [] => []
  | fuel + 1, c :: rest =>
    if c = '\n' then
      let run := rest.takeWhile isPySpace
      if '\n' ∈ run then
        let k := run.length - (run.reverse.takeWhile (fun x => !(x = '\n'))).length
        '\n' :: '\n' :: normNL fuel (rest.drop k)
      else c :: normNL fuel rest
    else c :: normNL fuel rest

/-- Model of `preprocess_text`: replace form feeds by a space, normalize blank
lines, strip. -/
def preprocessText (text : List Char) : List Char :=
  pyStrip (normNL text.length (text.map fun c => if c = '\x0c' then ' ' else c))

/-! ### Chunk identity (`window_chunker.py` 151-157, `chunk_executive_orders.py` 166-171) -/

/-- Python `chunk_id = f"{document_id}_chunk_{idx}"`. -/
def mkChunkId (docId : String) (idx : Nat) : String :=
  docId ++ "_chunk_" ++ Nat.repr idx

/-- Python `point_id = str(uuid.uuid5(uuid.NAMESPACE_DNS, chunk_id))`: the UUID5
hash (SHA-1 under a fixed namespace) is an external library function,
modelled as an arbitrary function `uuid5` of the `chunk_id` string; every
theorem about `point_id` holds for any such function, hash collisions
being out of scope per the specification. -/
def mkPointId (uuid5 : String → String) (docId : String) (idx : Nat) : String :=
  uuid5 (mkChunkId docId idx)

/-! ### Ingestion pipeline (`window_chunker.py` 133-212, `chunk_executive_orders.py` 148-225) -/

/-- One Qdrant point: deterministic id, payload
`{document_id, chunk_index, text, chunk_id}`, vector of type `V`. -/
structure IndexPoint (V : Type) where
  pointId : String
  docId : String
  chunkIndex : Nat
  text : List Char
  chunkId : String
  vec : V
deriving DecidableEq

/-- A write issued to the vector store: delete-by-document filter, or one
batched upsert. -/
inductive StoreOp (V : Type) where
  | deleteByDoc (docId : String)
  | upsertBatch (points : List (IndexPoint V))
deriving DecidableEq

/-- The point-building loop (`for idx, chunk_text in enumerate(chunks)`):
each chunk is embedded in order; the first embedding failure propagates
as the Python exception does, before any store write. -/
def buildPoints (embed : List Char → Except E V) (uuid5 : String → String)
    (docId : String) : List (List Char) → Nat → Except E (List (IndexPoint V))
  | [], _ => .ok []
  | c :: cs, idx => do
    let v ← embed c
    let rest ← buildPoints embed uuid5 docId cs (idx + 1)
    .ok (({ pointId := mkPointId uuid5 docId idx, docId := docId, chunkIndex := idx,
            text := c, chunkId := mkChunkId docId idx, vec := v } : IndexPoint V) :: rest)

/-- Split `l` into consecutive batches of `n` (Python
`range(0, len(points), batch_size)` slicing); `fuel = l.length` always
suffices for `n ≥ 1`. -/
def toBatches (n : Nat) : Nat → List α → List (List α)
  | 0, _ => []
  | fuel + 1, l => if l.isEmpty then [] else l.take n :: toBatches n fuel (l.drop n)

/-- The store writes of `process_and_embed_bill` / `process_and_embed_order`:
guarded by `if points:`, a delete of the document's previous chunks then
the upserts in batches of 100. -/
def ingestOps (docId : String) (pts : List (IndexPoint V)) : List (StoreOp V) :=
  if pts.isEmpty then []
  else .deleteByDoc docId :: (toBatches 100 pts.length pts).map .upsertBatch

/-- Model of `WindowChunker.process_and_embed_bill` (`window_chunker.py` 133-212):
preprocess, chunk, embed every chunk, then issue the store writes and
return `(len(chunks), sum(len(chunk) for chunk in chunks))`.  An
embedding failure is returned as `.error` — the Python exception
propagates before the `try` block, so the error value carries no store
ops.  (Store-write failures themselves are caught and logged by the
source, so the returned counts do not depend on them.) -/
def processAndEmbedBill (size ov : Nat) (embed : List Char → Except E V)
    (uuid5 : String → String) (docId : String) (text : List Char) :
    Except E (List (StoreOp V) × Nat × Nat) :=
  let cleaned := preprocessText text
  let chunks := wcChunkByWindow size ov cleaned
  (buildPoints embed uuid5 docId chunks 0).map fun pts =>
    (ingestOps docId pts, chunks.length, (chunks.map List.length).sum)

/-- Model of `EOChunker.process_and_embed_order` (`chunk_executive_orders.py`
148-225): identical pipeline over the EO chunker. -/
def processAndEmbedOrder (size ov d : Nat) (embed : List Char → Except E V)
    (uuid5 : String → String) (docId : String) (text : List Char) :
    Except E (List (StoreOp V) × Nat × Nat) :=
  let cleaned := preprocessText text
  let chunks := eoChunkByWindow size ov d cleaned
  (buildPoints embed uuid5 docId chunks 0).map fun pts =>
    (ingestOps docId pts, chunks.length, (chunks.map List.length).sum)

/-- Store ops actually issued by an ingestion run (none when it aborted
with an embedding error). -/
def issuedOps : Except E (List (StoreOp V) × Nat × Nat) → List (StoreOp V)
  | .error _ => []
  | .ok (ops, _, _) => ops

/-- The `(chunk_count, character_count)` return value of an ingestion
run, when it did not abort. -/
def ingestCounts : Except E (List (StoreOp V) × Nat × Nat) → Option (Nat × Nat)
  | .error _ => none
  | .ok (_, c, n) => some (c, n)

/-! ### BillEmbedder.retrieve_chunks merge (`embedding.py`, lines 86-145) -/

/-- The merge step of `BillEmbedder.retrieve_chunks` (lines 129-145):
start from the explicit-section hit when present, then fold over the
primary hits, appending each unless its text was already seen.  The
accumulator is `(results, seen_texts)`. -/
def mergeResults (boost : Option (List Char × Int)) (hits : List (List Char × Int)) :
    List (List Char × Int) × List (List Char) :=
  let init : List (List Char × Int) × List (List Char) :=
    match boost with
    | some b => ([b], [b.1])
    | none => ([], [])
  hits.foldl (fun acc h => if h.1 ∈ acc.2 then acc else (acc.1 ++ [h], h.1 :: acc.2)) init

/-- Model of `BillEmbedder.retrieve_chunks` after the two vector-store searches:
`boost` is the explicit-section hit (when the section regex matched and
the boosted search returned one) and `hits` are the primary semantic
hits in the order the store returned them; the merged list is truncated
to `top_k` (`return results[:top_k]`). -/
def retrieveChunks (boost : Option (List Char × Int)) (hits : List (List Char × Int))
    (topK : Nat) : List (List Char × Int) :=
  (mergeResults boost hits).1.take topK

/-! ### ExecutiveOrderQuerier (`query_executive_orders.py`, lines 39-154) -/

/-- One search hit as consumed by the querier: optional payload fields
and a score. -/
structure EOHit where
  text? : Option (List Char)
  orderId? : Option String
  score : Int
deriving DecidableEq

/-- Model of `ExecutiveOrderQuerier.query_order` (lines 39-87) after the
embed-and-search step: `run` is the outcome of the `try` block's store
interaction.  On success the hits are formatted as
`(payload.get("text", ""), score)`; any exception is caught, logged and
turned into `[]`. -/
def queryOrder (run : Except E (List EOHit)) : List (List Char × Int) :=
  match run with
  | .ok hits => hits.map fun h => (h.text?.getD [], h.score)
  | .error _ => []

/-- Model of `ExecutiveOrderQuerier.search_all_orders` (lines 119-154): same
shape, returning `(order_id, text, score)` triples; exceptions are
likewise caught and turned into `[]`. -/
def searchAllOrders (run : Except E (List EOHit)) : List (String × List Char × Int) :=
  match run with
  | .ok hits => hits.map fun h => (h.orderId?.getD "", h.text?.getD [], h.score)
  | .error _ => []

/-! ## Helper lemmas -/

theorem pyStrip_length_le (l : List Char) : (pyStrip l).length ≤ l.length := by
  unfold pyStrip
  calc ((l.dropWhile isPySpace).reverse.dropWhile isPySpace).reverse.length
      = ((l.dropWhile isPySpace).reverse.dropWhile isPySpace).length := List.length_reverse _
    _ ≤ (l.dropWhile isPySpace).reverse.length := (List.dropWhile_sublist _).length_le
    _ = (l.dropWhile isPySpace).length := List.length_reverse _
    _ ≤ l.length := (List.dropWhile_sublist _).length_le

theorem pySlice_length_le (l : List Char) (a b : Nat) : (pySlice l a b).length ≤ b - a := by
  unfold pySlice
  calc ((l.drop a).take (b - a)).length = min (b - a) (l.drop a).length := List.length_take _ _
    _ ≤ b - a := Nat.min_le_left _ _

theorem rfind?_eq_some {l sub : List Char} {a b i : Nat} (h : rfind? l sub a b = some i) :
    a ≤ i ∧ i + sub.length ≤ b ∧ pySlice l i (i + sub.length) = sub := by
  unfold rfind? at h
  have hmem := (List.max?_eq_some_iff'.mp h).1
  have := (List.mem_filter.mp hmem).2
  exact of_decide_eq_true this

theorem wcPunctScan_le {text : List Char} {s e thr v : Nat} :
    ∀ {ps : List (List Char)}, (∀ p ∈ ps, 1 ≤ p.length) →
      wcPunctScan text s e thr ps = some v → v ≤ e
  | [], _, h => by simp [wcPunctScan] at h
  | [p], hp, h => by
    unfold wcPunctScan at h
    rcases hr : rfind? text p s e with _ | b <;> simp only [hr] at h
    · exact absurd h (by simp)
    · have hb := (rfind?_eq_some hr).2.1
      have hp1 := hp p (by simp)
      by_cases hc : thr < b
      · rw [if_pos hc] at h; cases h; omega
      · rw [if_neg hc] at h; cases h; omega
  | p :: q :: ps, hp, h => by
    unfold wcPunctScan at h
    rcases hr : rfind? text p s e with _ | b <;> simp only [hr] at h
    · exact wcPunctScan_le (fun x hx => hp x (List.mem_cons_of_mem _ hx)) h
    · have hb := (rfind?_eq_some hr).2.1
      have hp1 := hp p (by simp)
      by_cases hc : thr < b
      · rw [if_pos hc] at h; cases h; omega
      · rw [if_neg hc] at h
        exact wcPunctScan_le (fun x hx => hp x (List.mem_cons_of_mem _ hx)) h

theorem wcPuncts_length : ∀ p ∈ wcPuncts, 1 ≤ p.length := by decide

theorem wcBoundary_le (size : Nat) (text : List Char) (s e : Nat) :
    wcBoundary size text s e ≤ e := by
  simp only [wcBoundary]
  split
  · rename_i b heq
    split
    · exact le_refl e
    · split at heq
      · rename_i b0 heq0
        split at heq
        · exact wcPunctScan_le wcPuncts_length heq
        · cases heq
          have := (rfind?_eq_some heq0).2.1
          simp only [List.length_cons, List.length_singleton] at this
          omega
      · exact wcPunctScan_le wcPuncts_length heq
  · exact le_refl e

theorem omax_eq_some {a b : Option Nat} {v : Nat} (h : omax a b = some v) :
    a = some v ∨ b = some v := by
  rcases a with _ | x <;> rcases b with _ | y <;> simp [omax] at h <;> try simp [h]
  rcases max_choice x y with hm | hm <;> rw [hm] at h <;> simp [h]

theorem eoEnd_le (size d : Nat) (text : List Char) (start : Nat) :
    eoEnd size d text start ≤ min (start + size) text.length := by
  simp only [eoEnd]
  split
  · split
    · rename_i b heq
      have := (rfind?_eq_some heq).2.1
      simp only [List.length_cons, List.length_singleton] at this
      omega
    · split
      · rename_i b heq
        rcases omax_eq_some heq with h | h
        · rcases omax_eq_some h with h | h <;>
          · have := (rfind?_eq_some h).2.1
            simp only [List.length_cons, List.length_singleton] at this
            omega
        · have := (rfind?_eq_some h).2.1
          simp only [List.length_cons, List.length_singleton] at this
          omega
      · split
        · rename_i b heq
          have := (rfind?_eq_some heq).2.1
          simp only [List.length_singleton] at this
          omega
        · omega
  · omega

theorem eoEnd_lower (size d : Nat) (text : List Char) (start : Nat) :
    min (start + size) text.length - d ≤ eoEnd size d text start := by
  simp only [eoEnd]
  split
  · split
    · rename_i b heq
      have := (rfind?_eq_some heq).1
      omega
    · split
      · rename_i b heq
        rcases omax_eq_some heq with h | h
        · rcases omax_eq_some h with h | h <;>
          · have := (rfind?_eq_some h).1
            omega
        · have := (rfind?_eq_some h).1
          omega
      · split
        · rename_i b heq
          have := (rfind?_eq_some heq).1
          omega
        · omega
  · omega

theorem wcNext_gt (size ov start : Nat) : start < wcNext size ov start := by
  simp only [wcNext]
  split <;> omega

theorem wcNext_le (size ov start : Nat) (hsz : 1 ≤ size) :
    wcNext size ov start ≤ start + size := by
  simp only [wcNext]
  split <;> omega

theorem eoNext_gt (ov len start e : Nat) : start < eoNext ov len start e := by
  simp only [eoNext]
  split <;> split <;> omega

theorem wcLoop_at_end {size ov : Nat} {text : List Char} {start : Nat}
    (h : text.length ≤ start) : ∀ fuel, wcLoop size ov text fuel start = [] := by
  intro fuel
  cases fuel <;> simp [wcLoop, Nat.not_lt.mpr h]

theorem eoLoop_at_end {size ov d : Nat} {text : List Char} {start : Nat}
    (h : text.length ≤ start) : ∀ fuel, eoLoop size ov d text fuel start = [] := by
  intro fuel
  cases fuel <;> simp [eoLoop, Nat.not_lt.mpr h]

theorem wcLoop_fuel_stable (size ov : Nat) (text : List Char) :
    ∀ f₁ f₂ start, text.length - start ≤ f₁ → text.length - start ≤ f₂ →
      wcLoop size ov text f₁ start = wcLoop size ov text f₂ start := by
  intro f₁
  induction f₁ with
  | zero =>
    intro f₂ start h1 _
    rw [wcLoop_at_end (by omega), wcLoop_at_end (by omega)]
  | succ f ih =>
    intro f₂ start h1 h2
    by_cases hs : start < text.length
    · rcases f₂ with _ | g
      · omega
      · simp only [wcLoop, if_pos hs]
        rw [ih g (wcNext size ov start)
          (by have := wcNext_gt size ov start; omega)
          (by have := wcNext_gt size ov start; omega)]
    · rw [wcLoop_at_end (by omega), wcLoop_at_end (by omega)]

theorem eoLoop_fuel_stable (size ov d : Nat) (text : List Char) :
    ∀ f₁ f₂ start, text.length - start ≤ f₁ → text.length - start ≤ f₂ →
      eoLoop size ov d text f₁ start = eoLoop size ov d text f₂ start := by
  intro f₁
  induction f₁ with
  | zero =>
    intro f₂ start h1 _
    rw [eoLoop_at_end (by omega), eoLoop_at_end (by omega)]
  | succ f ih =>
    intro f₂ start h1 h2
    by_cases hs : start < text.length
    · rcases f₂ with _ | g
      · omega
      · simp only [eoLoop, if_pos hs]
        rw [ih g (eoNext ov text.length start (eoEnd size d text start))
          (by have := eoNext_gt ov text.length start (eoEnd size d text start); omega)
          (by have := eoNext_gt ov text.length start (eoEnd size d text start); omega)]
    · rw [eoLoop_at_end (by omega), eoLoop_at_end (by omega)]

theorem pyStrip_eq_nil_iff {l : List Char} : pyStrip l = [] ↔ ∀ c ∈ l, isPySpace c = true := by
  unfold pyStrip
  constructor
  · intro h c hc
    have h2 : (l.dropWhile isPySpace).reverse.dropWhile isPySpace = [] := by
      rw [← List.reverse_reverse ((l.dropWhile isPySpace).reverse.dropWhile isPySpace), h,
        List.reverse_nil]
    have h3 : ∀ x ∈ l.dropWhile isPySpace, isPySpace x = true := by
      intro x hx
      exact List.dropWhile_eq_nil_iff.mp h2 x (List.mem_reverse.mpr hx)
    rcases List.mem_append.mp
        (by rw [List.takeWhile_append_dropWhile] ; exact hc :
          c ∈ l.takeWhile isPySpace ++ l.dropWhile isPySpace) with h4 | h4
    · exact List.mem_takeWhile_imp h4
    · exact h3 c h4
  · intro h
    have : l.dropWhile isPySpace = [] := List.dropWhile_eq_nil_iff.mpr h
    simp [this]

theorem pyStrip_has_nonspace {l : List Char} (h : pyStrip l ≠ []) :
    ∃ c ∈ pyStrip l, isPySpace c = false := by
  have h1 : (l.dropWhile isPySpace).reverse.dropWhile isPySpace ≠ [] := by
    intro hcon
    exact h (by simp [pyStrip, hcon])
  refine ⟨((l.dropWhile isPySpace).reverse.dropWhile isPySpace).head h1, ?_, ?_⟩
  · unfold pyStrip
    exact List.mem_reverse.mpr (List.head_mem h1)
  · exact List.head_dropWhile_not _ _ h1

theorem pyStrip_pyStrip_ne_nil {l : List Char} (h : pyStrip l ≠ []) :
    pyStrip (pyStrip l) ≠ [] := by
  intro hcon
  obtain ⟨c, hc, hns⟩ := pyStrip_has_nonspace h
  have := pyStrip_eq_nil_iff.mp hcon c hc
  rw [this] at hns
  exact absurd hns (by simp)

theorem wcLoop_mem {size ov : Nat} {text : List Char} :
    ∀ {fuel start : Nat} {c : List Char}, c ∈ wcLoop size ov text fuel start →
      (c.length ≤ size ∧ ¬c.isEmpty) := by
  intro fuel
  induction fuel with
  | zero => intro start c h; simp [wcLoop] at h
  | succ f ih =>
    intro start c h
    by_cases hs : start < text.length
    · simp only [wcLoop, if_pos hs] at h
      split at h
      · rename_i he
        split at h
        · exact ih h
        · rcases List.mem_cons.mp h with rfl | hm
          · refine ⟨?_, by assumption⟩
            calc (pyStrip (text.drop start)).length
                ≤ (text.drop start).length := pyStrip_length_le _
              _ = text.length - start := List.length_drop _ _
              _ ≤ size := by omega
          · exact ih hm
      · rename_i he
        split at h
        · exact ih h
        · rcases List.mem_cons.mp h with rfl | hm
          · refine ⟨?_, by assumption⟩
            calc (pyStrip (pySlice text start (wcBoundary size text start (start + size)))).length
                ≤ (pySlice text start (wcBoundary size text start (start + size))).length :=
                  pyStrip_length_le _
              _ ≤ wcBoundary size text start (start + size) - start := pySlice_length_le _ _ _
              _ ≤ size := by
                  have := wcBoundary_le size text start (start + size)
                  omega
          · exact ih hm
    · rw [wcLoop_at_end (by omega)] at h
      simp at h

theorem eoLoop_mem {size ov d : Nat} {text : List Char} :
    ∀ {fuel start : Nat} {c : List Char}, c ∈ eoLoop size ov d text fuel start →
      (c.length ≤ size ∧ ¬c.isEmpty) := by
  intro fuel
  induction fuel with
  | zero => intro start c h; simp [eoLoop] at h
  | succ f ih =>
    intro start c h
    by_cases hs : start < text.length
    · simp only [eoLoop, if_pos hs] at h
      split at h
      · exact ih h
      · rcases List.mem_cons.mp h with rfl | hm
        · refine ⟨?_, by assumption⟩
          calc (pyStrip (pySlice text start (eoEnd size d text start))).length
              ≤ (pySlice text start (eoEnd size d text start)).length := pyStrip_length_le _
            _ ≤ eoEnd size d text start - start := pySlice_length_le _ _ _
            _ ≤ size := by
                have := eoEnd_le size d text start
                omega
        · exact ih hm
    · rw [eoLoop_at_end (by omega)] at h
      simp at h

theorem wcLoop_mem_strip {size ov : Nat} {text : List Char} :
    ∀ {fuel start : Nat} {c : List Char}, c ∈ wcLoop size ov text fuel start →
      pyStrip c ≠ [] := by
  intro fuel
  induction fuel with
  | zero => intro start c h; simp [wcLoop] at h
  | succ f ih =>
    intro start c h
    by_cases hs : start < text.length
    · simp only [wcLoop, if_pos hs] at h
      split at h
      · rename_i he
        split at h
        · exact ih h
        · rcases List.mem_cons.mp h with rfl | hm
          · rename_i hne
            exact pyStrip_pyStrip_ne_nil (fun hp => hne (List.isEmpty_iff.mpr hp))
          · exact ih hm
      · rename_i he
        split at h
        · exact ih h
        · rcases List.mem_cons.mp h with rfl | hm
          · rename_i hne
            exact pyStrip_pyStrip_ne_nil (fun hp => hne (List.isEmpty_iff.mpr hp))
          · exact ih hm
    · rw [wcLoop_at_end (by omega)] at h
      simp at h

theorem eoLoop_mem_strip {size ov d : Nat} {text : List Char} :
    ∀ {fuel start : Nat} {c : List Char}, c ∈ eoLoop size ov d text fuel start →
      pyStrip c ≠ [] := by
  intro fuel
  induction fuel with
  | zero => intro start c h; simp [eoLoop] at h
  | succ f ih =>
    intro start c h
    by_cases hs : start < text.length
    · simp only [eoLoop, if_pos hs] at h
      split at h
      · exact ih h
      · rcases List.mem_cons.mp h with rfl | hm
        · rename_i hne
          exact pyStrip_pyStrip_ne_nil (fun hp => hne (List.isEmpty_iff.mpr hp))
        · exact ih hm
    · rw [eoLoop_at_end (by omega)] at h
      simp at h

/-! ## Claim theorems -/

/-- **C10**: every chunk emitted by either `chunk_by_window` is a
(trimmed) substring of a window of at most `size` characters, so its
length is at most `size` — for every input text, every window size and
overlap (even degenerate ones), and every boundary-band width `d`. -/
theorem chunk_length_invariant (size ov d : Nat) (text : List Char) :
    (∀ c ∈ wcChunkByWindow size ov text, c.length ≤ size) ∧
    (∀ c ∈ eoChunkByWindow size ov d text, c.length ≤ size) := by
  constructor
  · intro c hc
    unfold wcChunkByWindow at hc
    split at hc
    · rename_i hle
      rw [List.mem_singleton.mp hc]
      exact hle
    · exact (wcLoop_mem hc).1
  · intro c hc
    exact (eoLoop_mem hc).1

/-- **C6** (amended): for all parameters, even degenerate ones
(`overlap ≥ size`), both chunkers terminate because the cursor strictly
increases each iteration (equivalently, `text.length` fuel always
suffices for the loop); every chunk emitted by `EOChunker` is non-empty
after trimming, and so is every chunk emitted by `WindowChunker` when
`len(text) > size`; the single-chunk path of `WindowChunker`
(`len(text) ≤ size`) returns the text verbatim, which may be
whitespace-only (see the counterexample). -/
theorem chunk_termination_and_trimmed_nonempty (size ov d : Nat) (text : List Char) :
    (∀ start, start < wcNext size ov start) ∧
    (∀ start e, start < eoNext ov text.length start e) ∧
    (∀ fuel start, text.length - start ≤ fuel →
      wcLoop size ov text fuel start = wcLoop size ov text (text.length - start) start) ∧
    (∀ fuel start, text.length - start ≤ fuel →
      eoLoop size ov d text fuel start = eoLoop size ov d text (text.length - start) start) ∧
    (∀ c ∈ eoChunkByWindow size ov d text, pyStrip c ≠ []) ∧
    (size < text.length → ∀ c ∈ wcChunkByWindow size ov text, pyStrip c ≠ []) := by
  refine ⟨wcNext_gt size ov, eoNext_gt ov text.length, ?_, ?_, ?_, ?_⟩
  · intro fuel start hf
    exact wcLoop_fuel_stable size ov text fuel (text.length - start) start hf (le_refl _)
  · intro fuel start hf
    exact eoLoop_fuel_stable size ov d text fuel (text.length - start) start hf (le_refl _)
  · intro c hc
    exact eoLoop_mem_strip hc
  · intro hlt c hc
    unfold wcChunkByWindow at hc
    rw [if_neg (by omega)] at hc
    exact wcLoop_mem_strip hc

/-- **C6** witness: the theorem applied at `size = 2`, `overlap = 5`
(degenerate), `text = "abcd"`. -/
theorem chunk_termination_witness :
    (0 < wcNext 2 5 0) ∧
    (wcLoop 2 5 ['a', 'b', 'c', 'd'] 10 0 = wcLoop 2 5 ['a', 'b', 'c', 'd'] 4 0) ∧
    (∀ c ∈ wcChunkByWindow 2 5 ['a', 'b', 'c', 'd'], pyStrip c ≠ []) := by
  have h := chunk_termination_and_trimmed_nonempty 2 5 0 ['a', 'b', 'c', 'd']
  exact ⟨h.1 0, h.2.2.1 10 0 (by decide), h.2.2.2.2.2 (by decide)⟩

/-- **C6** counterexample: on the whitespace-only input `" "` (length 1
≤ size) `WindowChunker.chunk_by_window` emits the chunk `" "`, which is
empty after trimming — refuting "every chunk it emits is non-empty after
trimming". -/
theorem chunk_nonempty_counterexample :
    wcChunkByWindow 5 1 [' '] = [[' ']] ∧ pyStrip [' '] = [] := by decide

/-- **C5** (amended): for every text `T` with `len(T) ≤ size`,
`WindowChunker.chunk_by_window` returns `[T]` verbatim (untrimmed, so an
empty input yields `[""]`), while `EOChunker.chunk_by_window` returns
`[T.strip()]` when `T.strip()` is non-empty and the empty sequence when
`T` is whitespace-only (in particular an empty input yields an empty
output sequence). -/
theorem short_text_single_chunk (size ov d : Nat) (text : List Char)
    (h : text.length ≤ size) :
    wcChunkByWindow size ov text = [text] ∧
    eoChunkByWindow size ov d text =
      (if pyStrip text = [] then [] else [pyStrip text]) := by
  constructor
  · simp [wcChunkByWindow, h]
  · unfold eoChunkByWindow
    rcases hl : text.length with _ | f
    · have htext : text = [] := List.length_eq_zero.mp hl
      subst htext
      simp [eoLoop, pyStrip]
    · have hlen0 : 0 < text.length := by omega
      have hmin : min (0 + size) text.length = text.length := min_eq_right (by omega)
      have he : eoEnd size d text 0 = text.length := by
        simp only [eoEnd, hmin]
        simp
      have hnext : eoNext ov text.length 0 text.length = text.length := by
        simp only [eoNext]
        rw [if_neg (lt_irrefl _)]
        rw [if_neg (by omega)]
        exact min_self _
      have hslice : pySlice text 0 (text.length) = text := by
        simp [pySlice]
      simp only [eoLoop, if_pos hlen0, he, hnext, hslice]
      rw [eoLoop_at_end (le_refl _) f]
      by_cases hps : pyStrip text = [] <;>
        simp [hps, List.isEmpty_iff]

/-- **C5** witness: the theorem applied at `size = 5`, `overlap = 1`,
`d = 1`, `text = "ab"`. -/
theorem short_text_witness :
    wcChunkByWindow 5 1 ['a', 'b'] = [['a', 'b']] ∧
    eoChunkByWindow 5 1 1 ['a', 'b'] =
      (if pyStrip ['a', 'b'] = [] then [] else [pyStrip ['a', 'b']]) :=
  short_text_single_chunk 5 1 1 ['a', 'b'] (by decide)

/-- **C5** counterexample: with `size = 5`, `overlap = 1`,
`WindowChunker.chunk_by_window " a "` is `[" a "]`, not
`[" a ".strip()] = ["a"]`; and the empty input yields `[""]`, not the
empty output sequence. -/
theorem short_text_counterexample :
    wcChunkByWindow 5 1 [' ', 'a', ' '] ≠ [pyStrip [' ', 'a', ' ']] ∧
    wcChunkByWindow 5 1 [] ≠ ([] : List (List Char)) := by decide

/-! ### Window coverage (C3) -/

/-- The successive cursor values of the `WindowChunker` loop. -/
def wcStarts (size ov len : Nat) : Nat → Nat → List Nat
  | 0, _ => []
  | fuel + 1, start =>
    if start < len then start :: wcStarts size ov len fuel (wcNext size ov start) else []

/-- The window sliced at cursor `s` by the `WindowChunker` loop, before
trimming (`text[s:]` for the final slice, `text[s:boundary]` otherwise). -/
def wcWindowAt (size : Nat) (text : List Char) (s : Nat) : List Char :=
  if text.length ≤ s + size then text.drop s
  else pySlice text s (wcBoundary size text s (s + size))

/-- The successive cursor values of the `EOChunker` loop. -/
def eoStarts (size ov d : Nat) (text : List Char) : Nat → Nat → List Nat
  | 0, _ => []
  | fuel + 1, start =>
    if start < text.length then
      start ::
        eoStarts size ov d text fuel (eoNext ov text.length start (eoEnd size d text start))
    else []

/-- The window sliced at cursor `s` by the `EOChunker` loop, before
trimming (`text[s:end]`). -/
def eoWindowAt (size d : Nat) (text : List Char) (s : Nat) : List Char :=
  pySlice text s (eoEnd size d text s)

/-- The `WindowChunker` loop emits exactly the non-whitespace trimmed
windows at its cursor sequence. -/
theorem wcLoop_eq_windows (size ov : Nat) (text : List Char) :
    ∀ fuel start, wcLoop size ov text fuel start =
      (wcStarts size ov text.length fuel start).filterMap fun s =>
        if (pyStrip (wcWindowAt size text s)).isEmpty then none
        else some (pyStrip (wcWindowAt size text s)) := by
  intro fuel
  induction fuel with
  | zero => intro start; simp [wcLoop, wcStarts]
  | succ f ih =>
    intro start
    by_cases hs : start < text.length
    · have hw : (if text.length ≤ start + size then text.drop start
          else pySlice text start (wcBoundary size text start (start + size))) =
          wcWindowAt size text start := rfl
      simp only [wcLoop, wcStarts, if_pos hs, List.filterMap_cons, hw, ih]
      by_cases ht : (pyStrip (wcWindowAt size text start)).isEmpty <;> simp [ht]
    · rw [wcLoop_at_end (Nat.le_of_not_lt hs)]
      simp [wcStarts, hs]

/-- The `EOChunker` loop emits exactly the non-whitespace trimmed
windows at its cursor sequence. -/
theorem eoLoop_eq_windows (size ov d : Nat) (text : List Char) :
    ∀ fuel start, eoLoop size ov d text fuel start =
      (eoStarts size ov d text fuel start).filterMap fun s =>
        if (pyStrip (eoWindowAt size d text s)).isEmpty then none
        else some (pyStrip (eoWindowAt size d text s)) := by
  intro fuel
  induction fuel with
  | zero => intro start; simp [eoLoop, eoStarts]
  | succ f ih =>
    intro start
    by_cases hs : start < text.length
    · have hw : pySlice text start (eoEnd size d text start) = eoWindowAt size d text start := rfl
      simp only [eoLoop, eoStarts, if_pos hs, List.filterMap_cons, hw, ih]
      by_cases ht : (pyStrip (eoWindowAt size d text start)).isEmpty <;> simp [ht]
    · rw [eoLoop_at_end (Nat.le_of_not_lt hs)]
      simp [eoStarts, hs]

theorem eoNextEnd_le (size ov d : Nat) (text : List Char) (start : Nat) (hsz : 0 < size) :
    eoNext ov text.length start (eoEnd size d text start) ≤ start + size := by
  have hle := eoEnd_le size d text start
  simp only [eoNext]
  split <;> split <;> omega

theorem wcStarts_cover (size ov len : Nat) (hsz : 0 < size) :
    ∀ fuel start i, len - start ≤ fuel → start ≤ i → i < len →
      ∃ s ∈ wcStarts size ov len fuel start, s ≤ i ∧ i < s + size := by
  intro fuel
  induction fuel with
  | zero => intro start i h1 h2 h3; omega
  | succ f ih =>
    intro start i h1 h2 h3
    have hs : start < len := by omega
    by_cases hnext : i < wcNext size ov start
    · refine ⟨start, ?_, h2, ?_⟩
      · simp [wcStarts, hs]
      · have := wcNext_le size ov start hsz
        omega
    · obtain ⟨s, hmem, hle, hlt⟩ := ih (wcNext size ov start) i
        (by have := wcNext_gt size ov start; omega) (by omega) h3
      exact ⟨s, by simp [wcStarts, hs]; right; exact hmem, hle, hlt⟩

theorem eoStarts_cover (size ov d : Nat) (text : List Char) (hsz : 0 < size) :
    ∀ fuel start i, text.length - start ≤ fuel → start ≤ i → i < text.length →
      ∃ s ∈ eoStarts size ov d text fuel start, s ≤ i ∧ i < s + size := by
  intro fuel
  induction fuel with
  | zero => intro start i h1 h2 h3; omega
  | succ f ih =>
    intro start i h1 h2 h3
    have hs : start < text.length := by omega
    by_cases hnext : i < eoNext ov text.length start (eoEnd size d text start)
    · refine ⟨start, ?_, h2, ?_⟩
      · simp [eoStarts, hs]
      · have := eoNextEnd_le size ov d text start hsz
        omega
    · obtain ⟨s, hmem, hle, hlt⟩ := ih (eoNext ov text.length start (eoEnd size d text start)) i
        (by have := eoNext_gt ov text.length start (eoEnd size d text start); omega)
        (by omega) h3
      exact ⟨s, by simp [eoStarts, hs]; right; exact hmem, hle, hlt⟩

/-- **C3** (amended): for valid parameters (`size > 0`,
`0 ≤ overlap < size`), every character position of the input lies in at
least one iteration window `[start, start + size)` of the loop's cursor
sequence (for both chunkers); coverage by the *emitted* chunks fails —
boundary snapping can drop characters entirely (see the
counterexample). -/
theorem window_coverage (size ov d : Nat) (text : List Char)
    (hsz : 0 < size) (_hov : ov < size) :
    ∀ i < text.length,
      (∃ s ∈ wcStarts size ov text.length text.length 0, s ≤ i ∧ i < s + size) ∧
      (∃ s ∈ eoStarts size ov d text text.length 0, s ≤ i ∧ i < s + size) := by
  intro i hi
  exact ⟨wcStarts_cover size ov text.length hsz text.length 0 i (by omega) (by omega) hi,
    eoStarts_cover size ov d text hsz text.length 0 i (by omega) (by omega) hi⟩

/-- **C3** witness: coverage at `size = 3`, `overlap = 1`, `d = 0`,
`text = "abcde"`, position `i = 4`. -/
theorem window_coverage_witness :
    (∃ s ∈ wcStarts 3 1 5 5 0, s ≤ 4 ∧ 4 < s + 3) ∧
    (∃ s ∈ eoStarts 3 1 0 ['a', 'b', 'c', 'd', 'e'] 5 0, s ≤ 4 ∧ 4 < s + 3) :=
  window_coverage 3 1 0 ['a', 'b', 'c', 'd', 'e'] (by decide) (by decide) 4 (by decide)

/-- Input on which `WindowChunker.chunk_by_window 10 2` loses the
character `'X'` at position 7: the first window snaps its boundary to
the paragraph break at position 5 and the next cursor is
`0 + 10 - 2 = 8`. -/
def wcCoverCexText : List Char :=
  ['a', 'b', 'c', 'd', 'e', '\n', '\n', 'X', 'b', 'b', 'b', 'b', 'b', 'b', 'b', 'b', 'b',
   'b', 'b', 'b', 'b']

/-- **C3** counterexample: the character `'X'` of the input occurs in no
chunk emitted by `WindowChunker.chunk_by_window 10 2` — it is not
covered by any emitted chunk (trimming removes only whitespace, so a
covered `'X'` would survive). -/
theorem window_coverage_counterexample :
    'X' ∈ wcCoverCexText ∧
    ∀ c ∈ wcChunkByWindow 10 2 wcCoverCexText, 'X' ∉ c := by decide

/-! ### Chunk count bounds (C4) -/

theorem wcNext_eq (size ov start : Nat) (hov : ov < size) :
    wcNext size ov start = start + (size - ov) := by
  simp only [wcNext]
  split <;> omega

theorem wcLoop_count (size ov : Nat) (text : List Char) (hov : ov < size) :
    ∀ fuel start, text.length - start ≤ fuel →
      (wcLoop size ov text fuel start).length * (size - ov) ≤
        (text.length - start - 1) + (size - ov) := by
  intro fuel
  induction fuel with
  | zero =>
    intro start h1
    rw [wcLoop_at_end (by omega) 0]
    simp
  | succ f ih =>
    intro start h1
    by_cases hs : start < text.length
    · have hnext := wcNext_eq size ov start hov
      have hgt := wcNext_gt size ov start
      have hcount : (wcLoop size ov text (f + 1) start).length ≤
          (wcLoop size ov text f (wcNext size ov start)).length + 1 := by
        simp only [wcLoop, if_pos hs]
        split <;> split <;> simp
      by_cases hend : wcNext size ov start < text.length
      · have hrec := ih (wcNext size ov start) (by omega)
        have := Nat.mul_le_mul_right (size - ov) hcount
        calc (wcLoop size ov text (f + 1) start).length * (size - ov)
            ≤ ((wcLoop size ov text f (wcNext size ov start)).length + 1) * (size - ov) := this
          _ = (wcLoop size ov text f (wcNext size ov start)).length * (size - ov)
                + (size - ov) := by ring
          _ ≤ (text.length - wcNext size ov start - 1) + (size - ov) + (size - ov) := by omega
          _ ≤ (text.length - start - 1) + (size - ov) := by omega
      · have hz : wcLoop size ov text f (wcNext size ov start) = [] :=
          wcLoop_at_end (by omega) f
        rw [hz] at hcount
        simp at hcount
        have := Nat.mul_le_mul_right (size - ov) hcount
        simp at this
        omega
    · rw [wcLoop_at_end (by omega) (f + 1)]
      simp

theorem eoLoop_count (size ov d : Nat) (text : List Char) :
    ∀ fuel start, (eoLoop size ov d text fuel start).length ≤ text.length - start := by
  intro fuel
  induction fuel with
  | zero => intro start; simp [eoLoop]
  | succ f ih =>
    intro start
    by_cases hs : start < text.length
    · have hgt := eoNext_gt ov text.length start (eoEnd size d text start)
      have hrec := ih (eoNext ov text.length start (eoEnd size d text start))
      simp only [eoLoop, if_pos hs]
      split
      · omega
      · simp only [List.length_cons]
        omega
    · rw [eoLoop_at_end (by omega) (f + 1)]
      simp

/-- **C4** (amended): the chunk count is finite; for
`WindowChunker.chunk_by_window` on a *non-empty* text it is at most
`ceil(len(text) / (size - overlap))` (the empty text yields one chunk,
`[""]`); for `EOChunker.chunk_by_window` the ceiling bound can be
exceeded — boundary snapping shortens the effective stride (see the
counterexample) — but the count never exceeds `len(text)`, since the
cursor strictly increases. -/
theorem chunk_count_bound (size ov d : Nat) (text : List Char)
    (_hsz : 0 < size) (hov : ov < size) :
    (0 < text.length →
      (wcChunkByWindow size ov text).length ≤
        (text.length + (size - ov) - 1) / (size - ov)) ∧
    (eoChunkByWindow size ov d text).length ≤ text.length := by
  constructor
  · intro hlen
    rw [Nat.le_div_iff_mul_le (by omega)]
    unfold wcChunkByWindow
    split
    · simpa using (by omega : 1 * (size - ov) ≤ text.length + (size - ov) - 1)
    · have := wcLoop_count size ov text hov text.length 0 (by omega)
      omega
  · have := eoLoop_count size ov d text text.length 0
    simpa using this

/-- **C4** witness: the theorem applied at `size = 1000`,
`overlap = 200`, `d = 200`, on the 2500-character text `"A" * 2500`:
the `WindowChunker` chunk count is at most `ceil(2500 / 800) = 4`. -/
theorem chunk_count_witness :
    (wcChunkByWindow 1000 200 (List.replicate 2500 'A')).length ≤
        ((List.replicate 2500 'A').length + (1000 - 200) - 1) / (1000 - 200) ∧
    (eoChunkByWindow 1000 200 200 (List.replicate 2500 'A')).length ≤
        (List.replicate 2500 'A').length := by
  have h := chunk_count_bound 1000 200 200 (List.replicate 2500 'A') (by omega) (by omega)
  exact ⟨h.1 (by rw [List.length_replicate]; omega), h.2⟩

/-! ### Ingestion error handling (C7, C8) -/

theorem buildPoints_error {E V : Type} (embed : List Char → Except E V)
    (uuid5 : String → String) (docId : String) :
    ∀ (chunks : List (List Char)) (idx : Nat),
      (∃ c ∈ chunks, ∃ e, embed c = .error e) →
      ∃ e, buildPoints embed uuid5 docId chunks idx = .error e := by
  intro chunks
  induction chunks with
  | nil => intro idx h; simp at h
  | cons c cs ih =>
    intro idx h
    rcases hc : embed c with e | v
    · exact ⟨e, by simp [buildPoints, hc, Bind.bind, Except.bind]⟩
    · obtain ⟨c', hc', e', he'⟩ := h
      rcases List.mem_cons.mp hc' with rfl | hmem
      · rw [hc] at he'; cases he'
      · obtain ⟨e, he⟩ := ih (idx + 1) ⟨c', hmem, e', he'⟩
        refine ⟨e, ?_⟩
        simp [buildPoints, hc, Bind.bind, Except.bind, he]

/-- **C7**: if embedding fails for any chunk of a document, the whole
ingestion aborts (the Python exception propagates out of the
point-building loop) before any delete or upsert is issued to the
vector store — for both pipelines.  The previously stored chunk set is
therefore untouched. -/
theorem ingestion_aborts_on_embed_failure {E V : Type} (size ov d : Nat)
    (embed : List Char → Except E V) (uuid5 : String → String) (docId : String)
    (text : List Char) :
    ((∃ c ∈ wcChunkByWindow size ov (preprocessText text), ∃ e, embed c = .error e) →
      (∃ e, processAndEmbedBill size ov embed uuid5 docId text = .error e) ∧
        issuedOps (processAndEmbedBill size ov embed uuid5 docId text) = []) ∧
    ((∃ c ∈ eoChunkByWindow size ov d (preprocessText text), ∃ e, embed c = .error e) →
      (∃ e, processAndEmbedOrder size ov d embed uuid5 docId text = .error e) ∧
        issuedOps (processAndEmbedOrder size ov d embed uuid5 docId text) = []) := by
  constructor
  · intro h
    obtain ⟨e, he⟩ := buildPoints_error embed uuid5 docId _ 0 h
    have hp : processAndEmbedBill size ov embed uuid5 docId text = .error e := by
      simp only [processAndEmbedBill]
      rw [he]
      rfl
    exact ⟨⟨e, hp⟩, by rw [hp]; rfl⟩
  · intro h
    obtain ⟨e, he⟩ := buildPoints_error embed uuid5 docId _ 0 h
    have hp : processAndEmbedOrder size ov d embed uuid5 docId text = .error e := by
      simp only [processAndEmbedOrder]
      rw [he]
      rfl
    exact ⟨⟨e, hp⟩, by rw [hp]; rfl⟩

/-- **C7** witness: a failing embedder on the one-chunk document `"a"`
makes both pipelines return an error and issue no store op. -/
theorem ingestion_abort_witness :
    ((∃ e, processAndEmbedBill 5 1 (fun _ => (Except.error () : Except Unit Unit)) id "doc"
        ['a'] = .error e) ∧
      issuedOps (processAndEmbedBill 5 1 (fun _ => (Except.error () : Except Unit Unit)) id
        "doc" ['a']) = []) ∧
    ((∃ e, processAndEmbedOrder 5 1 1 (fun _ => (Except.error () : Except Unit Unit)) id "doc"
        ['a'] = .error e) ∧
      issuedOps (processAndEmbedOrder 5 1 1 (fun _ => (Except.error () : Except Unit Unit)) id
        "doc" ['a']) = []) := by
  have h := ingestion_aborts_on_embed_failure (E := Unit) (V := Unit) 5 1 1
    (fun _ => Except.error ()) id "doc" ['a']
  exact ⟨h.1 ⟨['a'], by decide, (), rfl⟩, h.2 ⟨['a'], by decide, (), rfl⟩⟩

/-- **C8** (code bug): ingesting the zero-length document through
`WindowChunker.process_and_embed_bill` returns `(1, 0)` — one chunk, the
empty string — and issues a delete plus an upsert of one empty-text
point, because `chunk_by_window` returns `[text]` without checking
emptiness on its short path; the specified behavior
(`(chunk_count = 0, character_count = 0)`, no upsert) is exhibited by
`EOChunker.process_and_embed_order` on the same input. -/
theorem empty_ingest_divergence :
    (ingestCounts (processAndEmbedBill 1000 200 (fun _ => (Except.ok () : Except Unit Unit)) id
        "doc" []) = some (1, 0) ∧
      issuedOps (processAndEmbedBill 1000 200 (fun _ => (Except.ok () : Except Unit Unit)) id
        "doc" []) ≠ []) ∧
    (ingestCounts (processAndEmbedOrder 1000 200 200
        (fun _ => (Except.ok () : Except Unit Unit)) id "doc" []) = some (0, 0) ∧
      issuedOps (processAndEmbedOrder 1000 200 200
        (fun _ => (Except.ok () : Except Unit Unit)) id "doc" []) = []) := by
  exact ⟨⟨by decide, by decide⟩, ⟨by decide, by decide⟩⟩

/-! ### Query error handling (C9) -/

/-- **C9** (amended): `query_order` and `search_all_orders` catch every
failure of their embed-and-search step and convert it into the empty
result list — indistinguishable from the genuinely-empty case — while on
success they return exactly the formatted hits.  (The error is logged,
not surfaced to the caller.) -/
theorem query_error_to_empty {E : Type} :
    (∀ e : E, queryOrder (.error e) = []) ∧
    (∀ e : E, searchAllOrders (.error e) = []) ∧
    (∀ e : E, queryOrder (.error e) = queryOrder (E := E) (.ok [])) ∧
    (∀ hits, queryOrder (E := E) (.ok hits) =
      hits.map fun h => (h.text?.getD [], h.score)) ∧
    (∀ hits, searchAllOrders (E := E) (.ok hits) =
      hits.map fun h => (h.orderId?.getD "", h.text?.getD [], h.score)) :=
  ⟨fun _ => rfl, fun _ => rfl, fun _ => rfl, fun _ => rfl, fun _ => rfl⟩

/-- **C9** counterexample: a store/embedding failure in `query_order` or
`search_all_orders` is converted into the default empty-results value,
identical to the genuinely-empty result — refuting "a failure is
surfaced to the caller; no error is ever converted into a default
empty-results return value". -/
theorem query_error_counterexample :
    queryOrder (E := Unit) (.error ()) = [] ∧
    queryOrder (E := Unit) (.ok []) = [] ∧
    searchAllOrders (E := Unit) (.error ()) = [] :=
  ⟨rfl, rfl, rfl⟩

/-- Input on which `EOChunker.chunk_by_window 5 0` (with
`d = int(5 * 0.2) = 1`) emits 3 chunks although
`ceil(len / (size - overlap)) = ceil(10 / 5) = 2`: boundary snapping
makes the cursor advance by less than `size - overlap`. -/
def eoCountCexText : List Char :=
  [' ', 'a', 'a', '
', ' ', 'a', ' ', '
', ' ', 'a']

/-- **C4** counterexample: `WindowChunker.chunk_by_window` on the empty
text yields 1 chunk while `ceil(0 / (size - overlap)) = 0`; and
`EOChunker.chunk_by_window 5 0` (with `d = int(5 * 0.2) = 1`) emits 3
chunks on a 10-character text although `ceil(10 / 5) = 2`. -/
theorem chunk_count_counterexample :
    ((wcChunkByWindow 10 2 []).length = 1 ∧
      ((List.length ([] : List Char)) + (10 - 2) - 1) / (10 - 2) = 0) ∧
    ((eoChunkByWindow 5 0 1 eoCountCexText).length = 3 ∧
      (eoCountCexText.length + (5 - 0) - 1) / (5 - 0) = 2) := by decide

/-! ### Chunk identity (C2) -/

theorem toDigitsCore_eq_digits :
    ∀ (f n : Nat) (ds : List Char), 0 < n → n < f →
      Nat.toDigitsCore 10 f n ds = ((Nat.digits 10 n).reverse.map Nat.digitChar) ++ ds := by
  intro f
  induction f with
  | zero => intro n ds hn hf; omega
  | succ f ih =>
    intro n ds hn hf
    have hdig : Nat.digits 10 n = n % 10 :: Nat.digits 10 (n / 10) :=
      Nat.digits_def' (by norm_num) hn
    by_cases hz : n / 10 = 0
    · have : Nat.digits 10 (n / 10) = [] := by rw [hz]; exact Nat.digits_zero 10
      simp [Nat.toDigitsCore, hz, hdig, this]
    · have hlt : n / 10 < f := by
        have := Nat.div_lt_self hn (by norm_num : 1 < 10)
        omega
      have hpos : 0 < n / 10 := Nat.pos_of_ne_zero hz
      simp only [Nat.toDigitsCore, hz, if_false]
      rw [ih (n / 10) (Nat.digitChar (n % 10) :: ds) hpos hlt, hdig]
      simp

theorem repr_data_eq_digits (n : Nat) (hn : 0 < n) :
    (Nat.repr n).data = (Nat.digits 10 n).reverse.map Nat.digitChar := by
  have h0 : Nat.repr n = (Nat.toDigitsCore 10 (n + 1) n []).asString := rfl
  rw [h0, toDigitsCore_eq_digits (n + 1) n [] hn (by omega)]
  simp [List.asString]

theorem digitChar_inj_lt : ∀ a < 10, ∀ b < 10, Nat.digitChar a = Nat.digitChar b → a = b := by
  decide

theorem digitChar_isDigit : ∀ a < 10, (Nat.digitChar a).isDigit = true := by
  decide

theorem map_digitChar_inj :
    ∀ {l1 l2 : List Nat}, (∀ x ∈ l1, x < 10) → (∀ x ∈ l2, x < 10) →
      l1.map Nat.digitChar = l2.map Nat.digitChar → l1 = l2
  | [], [], _, _, _ => rfl
  | [], _ :: _, _, _, h => by simp at h
  | _ :: _, [], _, _, h => by simp at h
  | a :: t1, b :: t2, h1, h2, h => by
    rw [List.map_cons, List.map_cons] at h
    have hab : a = b :=
      digitChar_inj_lt a (h1 a (by simp)) b (h2 b (by simp)) (List.head_eq_of_cons_eq h)
    have ht : t1 = t2 :=
      map_digitChar_inj (fun x hx => h1 x (by simp [hx])) (fun x hx => h2 x (by simp [hx]))
        (List.tail_eq_of_cons_eq h)
    rw [hab, ht]

theorem nat_repr_injective : Function.Injective Nat.repr := by
  intro m n h
  rcases Nat.eq_zero_or_pos m with rfl | hm <;> rcases Nat.eq_zero_or_pos n with rfl | hn
  · rfl
  · exfalso
    have hd := congrArg String.data h
    rw [repr_data_eq_digits n hn] at hd
    have h0 : (Nat.repr 0).data = ['0'] := rfl
    rw [h0] at hd
    have : [(0 : Nat)].map Nat.digitChar = (Nat.digits 10 n).reverse.map Nat.digitChar := by
      simpa using hd
    have hrev : [(0 : Nat)] = (Nat.digits 10 n).reverse :=
      map_digitChar_inj (by simp)
        (fun x hx => Nat.digits_lt_base (by norm_num) (List.mem_reverse.mp hx)) this
    have hdig : Nat.digits 10 n = [0] := by
      have := congrArg List.reverse hrev
      simpa using this.symm
    have := Nat.ofDigits_digits 10 n
    rw [hdig] at this
    simp [Nat.ofDigits] at this
    omega
  · exfalso
    have hd := congrArg String.data h
    rw [repr_data_eq_digits m hm] at hd
    have h0 : (Nat.repr 0).data = ['0'] := rfl
    rw [h0] at hd
    have : (Nat.digits 10 m).reverse.map Nat.digitChar = [(0 : Nat)].map Nat.digitChar := by
      simpa using hd
    have hrev : (Nat.digits 10 m).reverse = [(0 : Nat)] :=
      map_digitChar_inj
        (fun x hx => Nat.digits_lt_base (by norm_num) (List.mem_reverse.mp hx)) (by simp) this
    have hdig : Nat.digits 10 m = [0] := by
      have := congrArg List.reverse hrev
      simpa using this
    have := Nat.ofDigits_digits 10 m
    rw [hdig] at this
    simp [Nat.ofDigits] at this
    omega
  · have hd := congrArg String.data h
    rw [repr_data_eq_digits m hm, repr_data_eq_digits n hn] at hd
    have hrev : (Nat.digits 10 m).reverse = (Nat.digits 10 n).reverse :=
      map_digitChar_inj
        (fun x hx => Nat.digits_lt_base (by norm_num) (List.mem_reverse.mp hx))
        (fun x hx => Nat.digits_lt_base (by norm_num) (List.mem_reverse.mp hx)) hd
    have hdig : Nat.digits 10 m = Nat.digits 10 n := List.reverse_injective hrev
    have h1 := Nat.ofDigits_digits 10 m
    have h2 := Nat.ofDigits_digits 10 n
    rw [hdig] at h1
    rw [h2] at h1
    exact h1.symm

theorem repr_data_isDigit (n : Nat) : ∀ c ∈ (Nat.repr n).data, c.isDigit = true := by
  rcases Nat.eq_zero_or_pos n with rfl | hn
  · intro c hc
    have h0 : (Nat.repr 0).data = ['0'] := rfl
    rw [h0] at hc
    rw [List.mem_singleton.mp hc]
    decide
  · intro c hc
    rw [repr_data_eq_digits n hn] at hc
    obtain ⟨x, hx, rfl⟩ := List.mem_map.mp hc
    exact digitChar_isDigit x (Nat.digits_lt_base (by norm_num) (List.mem_reverse.mp hx))

theorem digits_underscore_inj :
    ∀ (u1 : List Char) {u2 r1 r2 : List Char},
      (∀ c ∈ u1, c.isDigit = true) → (∀ c ∈ u2, c.isDigit = true) →
      u1 ++ '_' :: r1 = u2 ++ '_' :: r2 → u1 = u2 ∧ r1 = r2
  | [], u2, r1, r2, _, h2, h => by
    rcases u2 with _ | ⟨b, t2⟩
    · simpa using h
    · exfalso
      have hb : b = '_' := (List.head_eq_of_cons_eq (by simpa using h)).symm
      have := h2 b (by simp)
      rw [hb] at this
      simp [Char.isDigit] at this
  | a :: t1, u2, r1, r2, h1, h2, h => by
    rcases u2 with _ | ⟨b, t2⟩
    · exfalso
      have ha : a = '_' := List.head_eq_of_cons_eq (by simpa using h)
      have := h1 a (by simp)
      rw [ha] at this
      simp [Char.isDigit] at this
    · have hab : a = b := List.head_eq_of_cons_eq (by simpa using h)
      have ht : t1 ++ '_' :: r1 = t2 ++ '_' :: r2 := by
        have := List.tail_eq_of_cons_eq (show a :: (t1 ++ '_' :: r1) = b :: (t2 ++ '_' :: r2) by
          simpa using h)
        exact this
      obtain ⟨hu, hr⟩ := digits_underscore_inj t1
        (fun c hc => h1 c (by simp [hc])) (fun c hc => h2 c (by simp [hc])) ht
      exact ⟨by rw [hab, hu], hr⟩

/-- **C2**: chunk identity is deterministic and collision-free:
`chunk_id = "{document_id}_chunk_{chunk_index}"` and
`point_id = uuid5(chunk_id)` for the fixed namespace hash `uuid5`;
identical inputs always yield the identical `point_id` (re-ingestion
idempotence), `point_id` is a pure function of
`(document_id, chunk_index)`, and two distinct
`(document_id, chunk_index)` pairs never yield the same `chunk_id`
(UUID hash collisions out of scope). -/
theorem chunk_identity (uuid5 : String → String) (d1 d2 : String) (i1 i2 : Nat) :
    (mkChunkId d1 i1 = d1 ++ "_chunk_" ++ Nat.repr i1) ∧
    (mkPointId uuid5 d1 i1 = uuid5 (mkChunkId d1 i1)) ∧
    (d1 = d2 → i1 = i2 → mkPointId uuid5 d1 i1 = mkPointId uuid5 d2 i2) ∧
    ((d1, i1) ≠ (d2, i2) → mkChunkId d1 i1 ≠ mkChunkId d2 i2) := by
  refine ⟨rfl, rfl, ?_, ?_⟩
  · rintro rfl rfl
    rfl
  · intro hne heq
    apply hne
    have hd := congrArg String.data heq
    simp only [mkChunkId, String.data_append] at hd
    have hrev := congrArg List.reverse hd
    simp only [List.reverse_append] at hrev
    have hsep : (("_chunk_" : String).data).reverse =
        '_' :: ['k', 'n', 'u', 'h', 'c', '_'] := rfl
    rw [hsep] at hrev
    have hshape : (Nat.repr i1).data.reverse ++
        '_' :: (['k', 'n', 'u', 'h', 'c', '_'] ++ d1.data.reverse) =
        (Nat.repr i2).data.reverse ++
        '_' :: (['k', 'n', 'u', 'h', 'c', '_'] ++ d2.data.reverse) := by
      simpa using hrev
    obtain ⟨hu, hr⟩ := digits_underscore_inj ((Nat.repr i1).data.reverse)
      (fun c hc => repr_data_isDigit i1 c (List.mem_reverse.mp hc))
      (fun c hc => repr_data_isDigit i2 c (List.mem_reverse.mp hc)) hshape
    have hi : i1 = i2 := by
      apply nat_repr_injective
      apply String.ext
      exact List.reverse_injective hu
    have hdstr : d1 = d2 := by
      apply String.ext
      apply List.reverse_injective
      exact List.append_cancel_left hr
    rw [hi, hdstr]

/-- **C2** witness: identical inputs give identical point ids, and the
distinct pairs `("a", 0)` and `("b", 1)` give distinct chunk ids. -/
theorem chunk_identity_witness :
    mkPointId id "a" 0 = mkPointId id "a" 0 ∧ mkChunkId "a" 0 ≠ mkChunkId "b" 1 :=
  ⟨(chunk_identity id "a" "a" 0 0).2.2.1 rfl rfl,
    (chunk_identity id "a" "b" 0 1).2.2.2 (by decide)⟩

/-! ### Hybrid retrieval merge (C1) -/

theorem count_le_one_of_nodup {α : Type} [BEq α] [LawfulBEq α] {l : List α}
    (h : l.Nodup) (a : α) : l.count a ≤ 1 := by
  induction l with
  | nil => simp
  | cons x t ih =>
    rcases List.nodup_cons.mp h with ⟨hx, ht⟩
    rw [List.count_cons]
    by_cases hax : a = x
    · subst hax
      have hz : t.count a = 0 := List.count_eq_zero.mpr hx
      simp [hz]
    · have hxa : (x == a) = false := beq_false_of_ne fun hh => hax hh.symm
      simp [hxa]
      exact ih ht

/-- Invariant carried through the merge fold: result texts are distinct
and `seen_texts` is exactly the set of texts in the result. -/
def mergeInv (acc : List (List Char × Int) × List (List Char)) : Prop :=
  (acc.1.map Prod.fst).Nodup ∧ (∀ t, t ∈ acc.2 ↔ t ∈ acc.1.map Prod.fst)

theorem mergeFold_inv :
    ∀ (hits : List (List Char × Int)) (acc : List (List Char × Int) × List (List Char)),
      mergeInv acc →
      mergeInv (hits.foldl
        (fun acc h => if h.1 ∈ acc.2 then acc else (acc.1 ++ [h], h.1 :: acc.2)) acc) ∧
      ∃ primary,
        (hits.foldl
          (fun acc h => if h.1 ∈ acc.2 then acc else (acc.1 ++ [h], h.1 :: acc.2)) acc).1 =
          acc.1 ++ primary ∧ primary.Sublist hits := by
  intro hits
  induction hits with
  | nil =>
    intro acc hinv
    exact ⟨hinv, [], by simp, List.Sublist.refl _⟩
  | cons h t ih =>
    intro acc hinv
    by_cases hmem : h.1 ∈ acc.2
    · rw [List.foldl_cons, if_pos hmem]
      obtain ⟨hinv', p, hp, hsub⟩ := ih acc hinv
      exact ⟨hinv', p, hp, hsub.cons h⟩
    · rw [List.foldl_cons, if_neg hmem]
      have hnotin : h.1 ∉ acc.1.map Prod.fst := fun hc => hmem ((hinv.2 h.1).mpr hc)
      have hinv' : mergeInv (acc.1 ++ [h], h.1 :: acc.2) := by
        constructor
        · rw [List.map_append]
          rw [List.nodup_append]
          refine ⟨hinv.1, by simp, ?_⟩
          intro x hx hx2
          simp at hx2
          subst hx2
          exact hnotin hx
        · intro t'
          simp only [List.mem_cons, List.map_append, List.mem_append]
          rw [hinv.2 t']
          simp [or_comm]
      obtain ⟨hinv'', p, hp, hsub⟩ := ih _ hinv'
      refine ⟨hinv'', h :: p, ?_, hsub.cons₂ h⟩
      rw [hp]
      simp

theorem mergeResults_spec (boost : Option (List Char × Int)) (hits : List (List Char × Int)) :
    ((mergeResults boost hits).1.map Prod.fst).Nodup ∧
    ∃ primary, (mergeResults boost hits).1 = boost.toList ++ primary ∧
      primary.Sublist hits := by
  have hinit : mergeInv (match boost with
      | some b => ([b], [b.1])
      | none => ([], [])) := by
    rcases boost with _ | b
    · exact ⟨by simp, by simp⟩
    · exact ⟨by simp, by simp⟩
  obtain ⟨hinv, p, hp, hsub⟩ := mergeFold_inv hits _ hinit
  refine ⟨hinv.1, p, ?_, hsub⟩
  rw [show (mergeResults boost hits).1 = _ from congrArg Prod.fst rfl]
  unfold mergeResults
  rw [hp]
  rcases boost with _ | b <;> simp [Option.toList]

/-- **C1**: per-document retrieval merge: the result has at most `top_k`
entries with pairwise-distinct texts; when the explicit-section boost hit
is present it is placed first (for `top_k ≥ 1`); the primary hits are
appended after it in their store order — hence in descending score order
whenever the store returns them so — skipping exact text duplicates; a
boosted text identical to a primary text appears exactly once. -/
theorem retrieve_chunks_spec (boost : Option (List Char × Int))
    (hits : List (List Char × Int)) (topK : Nat)
    (hsorted : hits.Pairwise (fun a b => b.2 ≤ a.2)) :
    (retrieveChunks boost hits topK).length ≤ topK ∧
    ((retrieveChunks boost hits topK).map Prod.fst).Nodup ∧
    (∀ b, boost = some b → 0 < topK →
      (retrieveChunks boost hits topK).head? = some b) ∧
    (∃ primary, (mergeResults boost hits).1 = boost.toList ++ primary ∧
      primary.Sublist hits ∧ primary.Pairwise (fun a b => b.2 ≤ a.2)) ∧
    (∀ b, boost = some b →
      ((retrieveChunks boost hits topK).map Prod.fst).count b.1 ≤ 1) := by
  obtain ⟨hnodup, p, hp, hsub⟩ := mergeResults_spec boost hits
  have hnodup_take : ((retrieveChunks boost hits topK).map Prod.fst).Nodup := by
    unfold retrieveChunks
    rw [List.map_take]
    exact List.Nodup.sublist (List.take_sublist _ _) hnodup
  refine ⟨?_, hnodup_take, ?_, ⟨p, hp, hsub, List.Pairwise.sublist hsub hsorted⟩, ?_⟩
  · unfold retrieveChunks
    rw [List.length_take]
    exact Nat.min_le_left _ _
  · rintro b rfl hk
    unfold retrieveChunks
    rw [hp]
    rcases topK with _ | k
    · omega
    · simp [Option.toList, List.take_succ_cons]
  · intro b _
    exact count_le_one_of_nodup hnodup_take b.1

/-- **C1** witness: boost hit `("s", 5)` with primary hits
`[("a", 9), ("s", 5)]` (descending scores) and `top_k = 2`: at most two
results, distinct texts, boost first, duplicate text kept once. -/
theorem retrieve_chunks_witness :
    (retrieveChunks (some (['s'], 5)) [(['a'], 9), (['s'], 5)] 2).length ≤ 2 ∧
    ((retrieveChunks (some (['s'], 5)) [(['a'], 9), (['s'], 5)] 2).map Prod.fst).Nodup ∧
    (retrieveChunks (some (['s'], 5)) [(['a'], 9), (['s'], 5)] 2).head? = some (['s'], 5) ∧
    ((retrieveChunks (some (['s'], 5)) [(['a'], 9), (['s'], 5)] 2).map Prod.fst).count ['s'] ≤ 1 := by
  have h := retrieve_chunks_spec (some (['s'], 5)) [(['a'], 9), (['s'], 5)] 2 (by decide)
  exact ⟨h.1, h.2.1, h.2.2.1 _ rfl (by decide), h.2.2.2.2 _ rfl⟩

end BillChat
